import Mathlib

/-!
Shallow embedding of the OverLeafAI repository's segment extractor,
fallback converter, normalization pass, backend conversion pipeline
(`src/backend/src/server.js`) and the frontend conversion-reconciliation
effect (`src/frontend/src/App.tsx`), together with proofs settling the
frozen claims about them.

Strings are modelled as `List Char`.  The JavaScript regular-expression
scans are modelled as structurally recursive character scans (with a
length fuel where the scan jumps past a match), so that every definition
is executable by the kernel.
-/

namespace OverleafAI

abbrev Str := List Char

/-- Characters removed by JavaScript `String.prototype.trim` (ASCII range). -/
def isWs (c : Char) : Bool :=
  c = ' ' || c = '\t' || c = '\n' || c = '\r' || c = '\x0B' || c = '\x0C'

/-- Strip leading whitespace, as the left half of JS `trim`. -/
def trimLeft (s : Str) : Str := s.dropWhile isWs

/-- Strip trailing whitespace, as the right half of JS `trim`. -/
def trimRight (s : Str) : Str := (s.reverse.dropWhile isWs).reverse

/-- JS `String.prototype.trim`. -/
def trimStr (s : Str) : Str := trimRight (trimLeft s)

/-- Convert a Lean string literal to the `Str` model. -/
def str (s : String) : Str := s.toList

/-! ## Segment extraction (`extractSegments`, both server and frontend)

The regex `/\*(.*?)\*/gs` pairs each `*` with the next `*`; the scan
below splits the input into the pieces that drive the loop:
`outside` runs between matches and `pair` contents inside a match. -/

/-- Split a string at its first `*`: `some (before, after)` when a star
exists, `none` otherwise. -/
def splitAtStar : Str → Option (Str × Str)
  | [] => none
  | c :: rest =>
    if c = '*' then some ([], rest)
    else (splitAtStar rest).map (fun pr => (c :: pr.1, pr.2))

/-- A piece of the document as seen by the delimiter scan: an `outside`
run (not enclosed by a complete pair) or the inside of a `*…*` pair. -/
inductive Piece where
  | outside (s : Str)
  | pair (inside : Str)
deriving DecidableEq

/-- The source text a piece stands for: a `pair` span includes its two
asterisk delimiters. -/
def pieceSpan : Piece → Str
  | .outside s => s
  | .pair i => '*' :: (i ++ ['*'])

/-- Delimiter scan with explicit fuel (the fuel is always at least the
string length at every call, so the `0` case is never reached). -/
def splitStarsF : Nat → Str → List Piece
  | 0, s => [Piece.outside s]
  | fuel + 1, s =>
    match splitAtStar s with
    | none => [Piece.outside s]
    | some (p, r) =>
      match splitAtStar r with
      | none => [Piece.outside s]
      | some (i, r2) => Piece.outside p :: Piece.pair i :: splitStarsF fuel r2

/-- The full delimiter scan of `/\*(.*?)\*/gs` over a document. -/
def splitStars (s : Str) : List Piece := splitStarsF s.length s

/-- A parsed segment before conversion: prose text or a math instruction. -/
inductive RawSegment where
  | text (content : Str)
  | math (content : Str)
deriving DecidableEq

/-- Content carried by a raw segment. -/
def segContent : RawSegment → Str
  | .text c => c
  | .math c => c

/-- Whether a raw segment is a math instruction. -/
def isMathSeg : RawSegment → Bool
  | .text _ => false
  | .math _ => true

/-- Server-side keep/trim rule for one scanned piece
(`server.js`, `extractSegments`): blank pieces are dropped and kept
contents are trimmed. -/
def pieceToSegB : Piece → Option RawSegment
  | .outside s => if trimStr s = [] then none else some (.text (trimStr s))
  | .pair i => if trimStr i = [] then none else some (.math (trimStr i))

/-- Backend `extractSegments` (`server.js` lines 187-219): scan pieces,
drop blank ones, trim kept contents, and fall back to one text segment
holding the trimmed document when nothing was kept but the document is
non-blank. -/
def extractSegmentsB (input : Str) : List RawSegment :=
  let segs := (splitStars input).filterMap pieceToSegB
  if segs.isEmpty ∧ trimStr input ≠ [] then [.text (trimStr input)] else segs

/-- Frontend keep rule (`App.tsx`, `extractSegments`): same blankness
test, but the pushed content is NOT trimmed. -/
def pieceToSegF : Piece → Option RawSegment
  | .outside s => if trimStr s = [] then none else some (.text s)
  | .pair i => if trimStr i = [] then none else some (.math i)

/-- Frontend `extractSegments` (`App.tsx` lines 841-872): like the
backend one but contents are kept untrimmed (including the whole-input
fallback segment). -/
def extractSegmentsF (input : Str) : List RawSegment :=
  let segs := (splitStars input).filterMap pieceToSegF
  if segs.isEmpty ∧ trimStr input ≠ [] then [.text input] else segs

/-- Backend extraction with the source span each emitted segment was cut
from (used to state the span-reconstruction claim): the span of a text
segment is the untrimmed outside run, the span of a math segment includes
its delimiters, and the span of the whole-document fallback segment is
the whole input. -/
def segmentsWithSpans (input : Str) : List (RawSegment × Str) :=
  let segs := (splitStars input).filterMap
    (fun p => (pieceToSegB p).map (fun s => (s, pieceSpan p)))
  if segs.isEmpty ∧ trimStr input ≠ [] then [(.text (trimStr input), input)] else segs

/-- Concatenation of the original spans of the segments the backend
extractor emits. -/
def spanConcat (input : Str) : Str :=
  ((segmentsWithSpans input).map Prod.snd).flatten

/-- Number of asterisks in a document; the regex finds a complete
delimiter pair exactly when there are at least two. -/
def starCount (s : Str) : Nat := s.count '*'

/-! ## Fallback converter (`basicInlineConverter`, `server.js` lines 165-174)

Three sequential case-insensitive regex replacements followed by a trim.
Each replacement's template in the source is a JavaScript string literal
of the form `'\\\\sqrt{$1}'`, i.e. a template containing TWO literal
backslashes, since backslash is not an escape character in a `replace`
template.  The `.`-groups of the patterns are non-greedy and do not
cross newlines (`gi` flags, no `s` flag). -/

/-- ASCII lower-casing, for the regexes' `i` flag. -/
def lowerChar (c : Char) : Char :=
  if 'A' ≤ c ∧ c ≤ 'Z' then Char.ofNat (c.toNat + 32) else c

/-- Case-insensitive literal prefix match; returns the rest on success. -/
def matchLit : Str → Str → Option Str
  | [], s => some s
  | _ :: _, [] => none
  | p :: ps, c :: cs => if lowerChar c = lowerChar p then matchLit ps cs else none

/-- Non-greedy `(.*?)` up to the first `stop` character: returns the
group and the rest after `stop`; fails at end of input or at a newline
(`.` does not match line terminators). -/
def scanToChar (stop : Char) : Str → Option (Str × Str)
  | [] => none
  | c :: r =>
    if c = stop then some ([], r)
    else if c = '\n' ∨ c = '\r' then none
    else (scanToChar stop r).map (fun pr => (c :: pr.1, pr.2))

/-- Match `/squareroot\((.*?)\)/i` at the start: group and rest. -/
def matchSqrt (s : Str) : Option (Str × Str) :=
  (matchLit (str "squareroot(") s).bind (scanToChar ')')

/-- Match `/integral\((.*?),(.*?),(.*?),(.*?)\)/i` at the start:
the four groups and the rest. -/
def matchIntegral (s : Str) : Option ((Str × Str × Str × Str) × Str) :=
  (matchLit (str "integral(") s).bind fun r0 =>
  (scanToChar ',' r0).bind fun g1 =>
  (scanToChar ',' g1.2).bind fun g2 =>
  (scanToChar ',' g2.2).bind fun g3 =>
  (scanToChar ')' g3.2).map fun g4 =>
  ((g1.1, g2.1, g3.1, g4.1), g4.2)

/-- Match `/fraction\((.*?),(.*?)\)/i` at the start: both groups and rest. -/
def matchFraction (s : Str) : Option ((Str × Str) × Str) :=
  (matchLit (str "fraction(") s).bind fun r0 =>
  (scanToChar ',' r0).bind fun g1 =>
  (scanToChar ')' g1.2).map fun g2 =>
  ((g1.1, g2.1), g2.2)

/-- `replace(/squareroot\((.*?)\)/gi, '\\\\sqrt{$1}')` as a fueled scan. -/
def sqrtPassF : Nat → Str → Str
  | 0, s => s
  | _ + 1, [] => []
  | fuel + 1, c :: rest =>
    match matchSqrt (c :: rest) with
    | some (g, after) => (str "\\\\sqrt\x7b") ++ (g ++ '\x7d' :: sqrtPassF fuel after)
    | none => c :: sqrtPassF fuel rest

/-- `replace(/integral\((.*?),(.*?),(.*?),(.*?)\)/gi,
'\\\\int_{ $1 }^{ $2 } $3 \\\\mathrm{d}$4')` as a fueled scan. -/
def integralPassF : Nat → Str → Str
  | 0, s => s
  | _ + 1, [] => []
  | fuel + 1, c :: rest =>
    match matchIntegral (c :: rest) with
    | some (g, after) =>
      (str "\\\\int_\x7b ") ++ (g.1 ++ (str " \x7d^\x7b ") ++ (g.2.1 ++
        (str " \x7d ") ++ (g.2.2.1 ++ (str " \\\\mathrm\x7bd\x7d") ++
        (g.2.2.2 ++ integralPassF fuel after))))
    | none => c :: integralPassF fuel rest

/-- `replace(/fraction\((.*?),(.*?)\)/gi, '\\\\frac{$1}{$2}')` as a
fueled scan. -/
def fractionPassF : Nat → Str → Str
  | 0, s => s
  | _ + 1, [] => []
  | fuel + 1, c :: rest =>
    match matchFraction (c :: rest) with
    | some (g, after) =>
      (str "\\\\frac\x7b") ++ (g.1 ++ (str "\x7d\x7b") ++ (g.2 ++ '\x7d' :: fractionPassF fuel after))
    | none => c :: fractionPassF fuel rest

/-- `basicInlineConverter` (`server.js` lines 165-174): the three
replacements in source order, then `trim`. -/
def basicInlineConverter (input : Str) : Str :=
  let s1 := sqrtPassF input.length input
  let s2 := integralPassF s1.length s1
  let s3 := fractionPassF s2.length s2
  trimStr s3

/-! ## Normalization (`normalizeLatex`, `server.js` lines 176-185)

For each command `cmd` the pass replaces
`(^|[^\\])(cmd)(?=[^a-zA-Z]|$)` globally by `prefix + '\' + cmd`: an
occurrence is escaped when it is at the scan position with a preceding
character that is not a backslash (or at the string start) and is
followed by a non-letter or the end of the string. -/

/-- ASCII letter test, for the regex class `[a-zA-Z]`. -/
def isAsciiLetter (c : Char) : Bool :=
  ('a' ≤ c && c ≤ 'z') || ('A' ≤ c && c ≤ 'Z')

/-- The lookahead `(?=[^a-zA-Z]|$)`: end of input or a non-letter next. -/
def boundaryOk : Str → Bool
  | [] => true
  | c :: _ => !isAsciiLetter c

/-- Interior scan of one command pass: the head of the current suffix
plays the `[^\\]` prefix role of a candidate match. -/
def escapeGoF (cmd : Str) : Nat → Str → Str
  | 0, s => s
  | _ + 1, [] => []
  | fuel + 1, c :: rest =>
    if (c != '\\') && cmd.isPrefixOf rest && boundaryOk (rest.drop cmd.length) then
      c :: '\\' :: (cmd ++ escapeGoF cmd fuel (rest.drop cmd.length))
    else c :: escapeGoF cmd fuel rest

/-- Interior scan with adequate fuel. -/
def escapeGo (cmd s : Str) : Str := escapeGoF cmd s.length s

/-- One whole command pass: the `^`-anchored alternative can fire at the
very start, after which only interior matches remain. -/
def escapePass (cmd s : Str) : Str :=
  if cmd.isPrefixOf s && boundaryOk (s.drop cmd.length) then
    '\\' :: (cmd ++ escapeGo cmd (s.drop cmd.length))
  else escapeGo cmd s

/-- The command list of `normalizeLatex`, in source order. -/
def commandsList : List Str :=
  [str "int", str "sum", str "sqrt", str "sin", str "cos", str "tan",
   str "log", str "nabla", str "vec", str "cdot", str "times", str "boxed"]

/-- `normalizeLatex` (`server.js` lines 176-185): the passes run
sequentially over the string, one per command. -/
def normalizeLatex (latex : Str) : Str :=
  if latex = [] then []
  else commandsList.foldl (fun acc cmd => escapePass cmd acc) latex

/-! ## Backend conversion pipeline (`convertMathToLatex`, no API key) -/

/-- A display-ready segment of the conversion response. -/
inductive RSeg where
  | text (content : Str)
  | latex (content : Str)
  | placeholder (content : Str)
deriving DecidableEq

/-- The instruction texts of the math segments, in order. -/
def mathContents (segs : List RawSegment) : List Str :=
  (segs.filter isMathSeg).map segContent

/-- `mathSegments.map((segment, index) => latexList[index] ??
basicInlineConverter(segment.content))`: positions beyond the returned
list are resolved by the fallback converter. -/
def padResults : List Str → List Str → List Str
  | _, [] => []
  | [], c :: cs => basicInlineConverter c :: padResults [] cs
  | l :: ls, _ :: cs => l :: padResults ls cs

/-- The short-response guard of `convertMathToLatex` (`server.js` lines
63-68): pad only when the returned list is shorter than the request. -/
def backfill (latexList : List Str) (contents : List Str) : List Str :=
  if latexList.length < contents.length then padResults latexList contents
  else latexList

/-- The merge loop of `convertMathToLatex` (lines 70-84): walk the
segments, consuming one resolved string per non-empty math segment;
empty contents and empty normalized conversions produce no segment. -/
def mergeSegments : List RawSegment → List Str → List RSeg
  | [], _ => []
  | .text c :: rest, ls =>
    if c = [] then mergeSegments rest ls
    else RSeg.text c :: mergeSegments rest ls
  | .math c :: rest, ls =>
    if c = [] then mergeSegments rest ls
    else
      let converted := normalizeLatex (ls.headD [])
      if converted = [] then mergeSegments rest ls.tail
      else RSeg.latex converted :: mergeSegments rest ls.tail

/-- The no-math early return of `convertMathToLatex` (lines 44-54):
every segment is re-emitted as text, dropping empty contents. -/
def textOnlyView (segs : List RawSegment) : List RSeg :=
  segs.filterMap (fun s => if segContent s = [] then none else some (RSeg.text (segContent s)))

/-- `convertMathToLatex` with the resolved-latex list as a parameter. -/
def convertCore (input : Str) (latexList : List Str) : List RSeg :=
  let segments := extractSegmentsB input
  let maths := mathContents segments
  if maths.isEmpty then textOnlyView segments
  else mergeSegments segments (backfill latexList maths)

/-- `convertMathToLatex` when no OpenAI key is configured: the resolved
list is the fallback converter applied to every instruction. -/
def convertMathToLatexNoKey (input : Str) : List RSeg :=
  convertCore input ((mathContents (extractSegmentsB input)).map basicInlineConverter)

/-! ## `/convert` request validation (`server.js` lines 20-38) -/

/-- The JavaScript values an `input` field may hold (floats omitted). -/
inductive JsVal where
  | undef
  | nullv
  | jsBool (b : Bool)
  | jsNum (n : Int)
  | jsStr (s : Str)
deriving DecidableEq

/-- JS falsiness of the modelled values (`!input`). -/
def isFalsy : JsVal → Bool
  | .undef => true
  | .nullv => true
  | .jsBool b => !b
  | .jsNum n => n = 0
  | .jsStr s => s.isEmpty

/-- `typeof input === 'string'`. -/
def isStringVal : JsVal → Bool
  | .jsStr _ => true
  | _ => false

/-- The string payload (only consulted after the string check passes). -/
def strOf : JsVal → Str
  | .jsStr s => s
  | _ => []

/-- Outcome of a `/convert` request in the no-key configuration. -/
inductive ConvertResult where
  | clientError (status : Nat) (msg : Str)
  | ok (segs : List RSeg)
deriving DecidableEq

/-- The 400 message of the `/convert` validation branch. -/
def invalidInputMsg : Str :=
  str "Request body must include an \"input\" string with the math expression."

/-- The `/convert` handler: `if (!input || typeof input !== 'string')`
rejects with 400 before `convertMathToLatex` is reached. -/
def handleConvert (input : JsVal) : ConvertResult :=
  if isFalsy input || !(isStringVal input) then .clientError 400 invalidInputMsg
  else .ok (convertMathToLatexNoKey (strOf input))

/-! ## Frontend conversion effect (`App.tsx` lines 62-151)

The session cache is the `latexCacheRef` map from raw instruction text
to resolved LaTeX.  One effect run ("reconciliation cycle") is modelled
as a pure function of the cache, the input, and the outcome of the
`/convert` call (`some segments` for a successful response, `none` for
a failed one); its result is the finally displayed segment list, whether
a network call was dispatched, and the cache afterwards. -/

/-- The session conversion cache, instruction text to LaTeX. -/
def Cache : Type := Str → Option Str

/-- The cache at the start of an editing session. -/
def emptyCache : Cache := fun _ => none

/-- `Map.prototype.set`. -/
def cacheSet (m : Cache) (k v : Str) : Cache :=
  fun x => if x = k then some v else m x

/-- `const cached = cache.get(content); if (cached) …`: an entry holding
the empty string is falsy and counts as a miss. -/
def cacheHit (m : Cache) (k : Str) : Option Str :=
  match m k with
  | some v => if v = [] then none else some v
  | none => none

/-- The cache update after a successful batch (`App.tsx` lines 120-127):
pair latex segments with the math snapshot positionally, skipping
positions whose snapshot entry is missing or falsy. -/
def updateCache (m : Cache) (snapshot latexVals : List Str) : Cache :=
  (snapshot.zip latexVals).foldl
    (fun acc kv => if kv.1 = [] then acc else cacheSet acc kv.1 kv.2) m

/-- Hydration of one parsed segment against the cache (lines 86-97):
cache hits become latex segments, misses become placeholders. -/
def hydrateSeg (m : Cache) : RawSegment → RSeg
  | .text c => .text c
  | .math c =>
    match cacheHit m c with
    | some v => .latex v
    | none => .placeholder c

/-- Whether any instruction is not already resolved by the cache. -/
def needsConv (m : Cache) (segs : List RawSegment) : Bool :=
  segs.any fun s => isMathSeg s && (cacheHit m (segContent s)).isNone

/-- The latex contents of a response, in order (lines 116-118). -/
def latexContents (out : List RSeg) : List Str :=
  out.filterMap fun s =>
    match s with
    | .latex c => some c
    | _ => none

/-- Result of one run of the conversion effect. -/
structure CycleResult where
  output : List RSeg
  didCall : Bool
  cache : Cache

/-- One conversion-effect run (`App.tsx` lines 62-151).  Blank input
clears the view; with no math segment the parse is displayed as text;
with every instruction cached the hydrated view is final and no call is
dispatched; otherwise the call is dispatched and a successful response
replaces the view and extends the cache, while a failure leaves the
hydrated placeholders displayed and the cache untouched. -/
def reconcileCycle (m : Cache) (input : Str) (resp : Option (List RSeg)) : CycleResult :=
  if trimStr input = [] then ⟨[], false, m⟩
  else
    let segs := extractSegmentsF input
    if ¬ segs.any isMathSeg then ⟨segs.map (fun s => RSeg.text (segContent s)), false, m⟩
    else if needsConv m segs = false then ⟨segs.map (hydrateSeg m), false, m⟩
    else
      match resp with
      | some out => ⟨out, true, updateCache m (mathContents segs) (latexContents out)⟩
      | none => ⟨segs.map (hydrateSeg m), true, m⟩

/-! ## Derived forms used by the claims -/

/-- A raw segment with its content trimmed. -/
def trimRaw : RawSegment → RawSegment
  | .text c => .text (trimStr c)
  | .math c => .math (trimStr c)

/-- A rendered segment with its content trimmed. -/
def trimRSeg : RSeg → RSeg
  | .text c => .text (trimStr c)
  | .latex c => .latex (trimStr c)
  | .placeholder c => .placeholder (trimStr c)

/-- Trim every rendered segment's content. -/
def trimSegs (segs : List RSeg) : List RSeg := segs.map trimRSeg

/-- How the no-key server renders one extracted segment. -/
def renderB : RawSegment → RSeg
  | .text c => .text c
  | .math c => .latex (normalizeLatex (basicInlineConverter c))

/-- The LaTeX the no-key system resolves a frontend instruction text to
(the server trims the instruction before converting it). -/
def cacheVal (k : Str) : Str := normalizeLatex (basicInlineConverter (trimStr k))

/-- A session cache is consistent when every entry holds the value the
no-key system resolves its key to; caches reachable in a session are. -/
def consistentCache (m : Cache) : Prop :=
  ∀ k v, m k = some v → v = cacheVal k

/-- Modelled from the claim's words, for comparison with the source's
`normalizeLatex`: escape a command only where it occurs as a bare
identifier that is not already escaped, i.e. where the preceding
character is neither a letter nor a backslash (interior scan). -/
def escapeGoClaimedF (cmd : Str) : Nat → Str → Str
  | 0, s => s
  | _ + 1, [] => []
  | fuel + 1, c :: rest =>
    if (!isAsciiLetter c) && (c != '\\') && cmd.isPrefixOf rest
        && boundaryOk (rest.drop cmd.length) then
      c :: '\\' :: (cmd ++ escapeGoClaimedF cmd fuel (rest.drop cmd.length))
    else c :: escapeGoClaimedF cmd fuel rest

/-- Modelled from the claim's words: one bare-identifier command pass. -/
def escapePassClaimed (cmd s : Str) : Str :=
  if cmd.isPrefixOf s && boundaryOk (s.drop cmd.length) then
    '\\' :: (cmd ++ escapeGoClaimedF cmd (s.drop cmd.length).length (s.drop cmd.length))
  else escapeGoClaimedF cmd s.length s

/-- Modelled from the claim's words: normalization that escapes exactly
the unescaped bare-identifier occurrences of the known commands. -/
def normalizeLatexClaimed (latex : Str) : Str :=
  if latex = [] then []
  else commandsList.foldl (fun acc cmd => escapePassClaimed cmd acc) latex

/-- An occurrence of `cmd` strictly inside `s` that the regex
`(^|[^\\])(cmd)(?=[^a-zA-Z]|$)` can fire on: some preceding character
that is not a backslash, and a non-letter (or the end) right after. -/
def IntQual (cmd s : Str) : Prop :=
  ∃ p c r2, s = p ++ c :: (cmd ++ r2) ∧ c ≠ '\\' ∧ boundaryOk r2 = true

/-- An occurrence of `cmd` at the very start of `s` with a non-letter
(or the end) right after: the `^` alternative of the regex. -/
def HeadQual (cmd s : Str) : Prop :=
  ∃ r2, s = cmd ++ r2 ∧ boundaryOk r2 = true

/-- Any occurrence of `cmd` in `s` the command pass can escape. -/
def Qual (cmd s : Str) : Prop := HeadQual cmd s ∨ IntQual cmd s

end OverleafAI

namespace OverleafAI

/-! ## Supporting lemmas -/

theorem padResults_length : ∀ (ls cs : List Str), (padResults ls cs).length = cs.length := by
  intro ls cs
  induction cs generalizing ls with
  | nil => cases ls <;> rfl
  | cons c cs ih =>
    cases ls with
    | nil => simp [padResults, ih]
    | cons l ls => simp [padResults, ih]

theorem padResults_get? : ∀ (ls cs : List Str) (i : Nat), ls.length ≤ i →
    (padResults ls cs).get? i = (cs.get? i).map basicInlineConverter := by
  intro ls cs
  induction cs generalizing ls with
  | nil => intro i h; cases ls <;> simp [padResults]
  | cons c cs ih =>
    intro i h
    cases ls with
    | nil =>
      cases i with
      | zero => rfl
      | succ j => simpa [padResults] using ih [] j (by simp)
    | cons l ls =>
      cases i with
      | zero => simp at h
      | succ j => simpa [padResults] using ih ls j (Nat.le_of_succ_le_succ h)

/-! ## Claim theorems -/

/-- C1: when the external service returns fewer LaTeX strings than the
number of requested instructions, the merged resolution list has one
entry per instruction, and every position at or beyond the returned
length is resolved by applying the fallback converter to that
instruction's text — no requested instruction is omitted. -/
theorem c1_short_response_backfilled (ls cs : List Str) (i : Nat)
    (hshort : ls.length < cs.length) (hmiss : ls.length ≤ i) :
    (backfill ls cs).length = cs.length ∧
    (backfill ls cs).get? i = (cs.get? i).map basicInlineConverter := by
  unfold backfill
  rw [if_pos hshort]
  exact ⟨padResults_length ls cs, padResults_get? ls cs i hmiss⟩

theorem c1_witness :
    ([] : List Str).length < [str "squareroot(2x)"].length ∧
    ([] : List Str).length ≤ 0 ∧
    ((backfill [] [str "squareroot(2x)"]).length = [str "squareroot(2x)"].length ∧
     (backfill [] [str "squareroot(2x)"]).get? 0 =
       ([str "squareroot(2x)"].get? 0).map basicInlineConverter) :=
  ⟨by decide, by decide,
    c1_short_response_backfilled [] [str "squareroot(2x)"] 0 (by decide) (by decide)⟩

/-- C2 counterexample: `hello` matches none of the fallback converter's
shapes (the converter returns it unchanged), yet with no external
service the conversion emits a latex segment for it instead of dropping
it, contradicting the claim that such instructions produce no segment. -/
theorem c2_unresolvable_not_dropped_cex :
    basicInlineConverter (str "hello") = str "hello" ∧
    convertMathToLatexNoKey (str "*hello*") = [RSeg.latex (str "hello")] := by
  decide

/-- C3: evaluating the no-key pipeline at the spec's scenario input
shows the latex segment's content is `\\sqrt{2x}` with TWO backslashes
(the replacement template holds two literal backslashes), not the
single-backslash string the claim states. -/
theorem c3_sqrt_scenario_double_backslash :
    convertMathToLatexNoKey (str "*squareroot(2x)* is steep") =
      [RSeg.latex (str "\\\\sqrt\x7b2x\x7d"), RSeg.text (str "is steep")] ∧
    str "\\\\sqrt\x7b2x\x7d" ≠ str "\\sqrt\x7b2x\x7d" := by
  decide

/-- C4 counterexample: in `a**b` the delimiter pair has blank inside and
is dropped, so the concatenated spans of the emitted segments are `ab`,
which does not reconstruct the input. -/
theorem c4_span_concat_cex : spanConcat (str "a**b") ≠ str "a**b" := by
  decide

/-- C8: a `/convert` request whose input field is absent or not a string
is answered with the 400 invalid-input error (no conversion is reached),
and a request whose input is a non-empty string never takes the error
branch: it is answered by converting that string. -/
theorem c8_input_validation :
    (∀ v : JsVal, v = JsVal.undef ∨ isStringVal v = false →
      handleConvert v = ConvertResult.clientError 400 invalidInputMsg) ∧
    (∀ s : Str, s ≠ [] →
      handleConvert (JsVal.jsStr s) = ConvertResult.ok (convertMathToLatexNoKey s)) := by
  constructor
  · intro v _h
    cases v with
    | undef => rfl
    | nullv => rfl
    | jsBool b => simp [handleConvert, isFalsy, isStringVal]
    | jsNum n => simp [handleConvert, isFalsy, isStringVal]
    | jsStr s =>
      rcases _h with h | h
      · exact absurd h (by simp)
      · exact absurd h (by simp [isStringVal])
  · intro s hs
    simp [handleConvert, isFalsy, isStringVal, strOf, List.isEmpty_eq_true, hs]

theorem c8_witness :
    handleConvert JsVal.nullv = ConvertResult.clientError 400 invalidInputMsg ∧
    handleConvert (JsVal.jsStr (str "x")) =
      ConvertResult.ok (convertMathToLatexNoKey (str "x")) :=
  ⟨c8_input_validation.1 JsVal.nullv (Or.inr rfl),
   c8_input_validation.2 (str "x") (by decide)⟩

/-- C9 counterexample: in `mint` the command `int` is not a bare
identifier (it is preceded by the letter `m`), so the claimed
normalization leaves `mint` unchanged, but the source's normalization
escapes it to `m\int`. -/
theorem c9_bare_identifier_cex :
    normalizeLatexClaimed (str "mint") = str "mint" ∧
    normalizeLatex (str "mint") = str "m\\int" := by
  decide

/-- C6 counterexample: after a successful reconciliation of `a *x*`, a
second reconciliation of the same document is fully cache-served but
displays the untrimmed text run `a ` where the prior server response
held `a`, so the rendered segments are not identical. -/
theorem c6_cached_output_cex :
    (reconcileCycle
        (reconcileCycle emptyCache (str "a *x*")
          (some (convertMathToLatexNoKey (str "a *x*")))).cache
        (str "a *x*") none).output ≠
      (reconcileCycle emptyCache (str "a *x*")
        (some (convertMathToLatexNoKey (str "a *x*")))).output := by
  decide

/-- C10: the empty string is falsy in the validation test, so a
`/convert` request with empty input is rejected with exactly the same
400 invalid-input error as a request missing the field. -/
theorem c10_empty_input_rejected :
    handleConvert (JsVal.jsStr []) = ConvertResult.clientError 400 invalidInputMsg ∧
    handleConvert (JsVal.jsStr []) = handleConvert JsVal.undef := by
  decide

end OverleafAI

namespace OverleafAI

theorem splitAtStar_eq_none {s : Str} : splitAtStar s = none ↔ '*' ∉ s := by
  induction s with
  | nil => simp [splitAtStar]
  | cons c rest ih =>
    by_cases hc : c = '*'
    · subst hc; simp [splitAtStar]
    · simp [splitAtStar, hc, Option.map_eq_none', ih, Ne.symm hc]

theorem splitAtStar_eq_some {s p r : Str} (h : splitAtStar s = some (p, r)) :
    s = p ++ '*' :: r ∧ '*' ∉ p := by
  induction s generalizing p r with
  | nil => simp [splitAtStar] at h
  | cons c rest ih =>
    by_cases hc : c = '*'
    · subst hc
      simp [splitAtStar] at h
      obtain ⟨hp, hr⟩ := h
      subst hp; subst hr
      simp
    · simp only [splitAtStar, hc, if_false, Option.map_eq_some'] at h
      obtain ⟨⟨p2, r2⟩, hrec, heq⟩ := h
      obtain ⟨hp, hr⟩ := Prod.mk.injEq .. ▸ heq
      subst hr
      obtain ⟨hs, hnp⟩ := ih hrec
      subst hs
      constructor
      · rw [← hp]; simp
      · rw [← hp]
        simp [hnp, Ne.symm hc]

theorem splitStarsF_of_le_one_star {s : Str} (f : Nat) (h : starCount s ≤ 1) :
    splitStarsF f s = [Piece.outside s] := by
  cases f with
  | zero => rfl
  | succ f =>
    cases h1 : splitAtStar s with
    | none => simp [splitStarsF, h1]
    | some pr =>
      obtain ⟨p, r⟩ := pr
      obtain ⟨hs, hnp⟩ := splitAtStar_eq_some h1
      have hp0 : starCount p = 0 := List.count_eq_zero.mpr hnp
      have hr0 : starCount r = 0 := by
        have : starCount s = starCount p + (1 + starCount r) := by
          simp [starCount, hs, List.count_append, List.count_cons]
          omega
        omega
      have h2 : splitAtStar r = none :=
        splitAtStar_eq_none.mpr (List.count_eq_zero.mp hr0)
      simp [splitStarsF, h1, h2]

/-- C5: a document containing no complete pair of asterisk delimiters
(at most one asterisk) extracts to exactly one text segment holding the
trimmed document, or to no segment at all when the trimmed document is
empty. -/
theorem c5_no_pair_single_text_segment (input : Str) (h : starCount input ≤ 1) :
    extractSegmentsB input =
      if trimStr input = [] then [] else [RawSegment.text (trimStr input)] := by
  have hs : splitStars input = [Piece.outside input] :=
    splitStarsF_of_le_one_star input.length h
  by_cases ht : trimStr input = []
  · simp [extractSegmentsB, hs, pieceToSegB, ht]
  · simp [extractSegmentsB, hs, pieceToSegB, ht]

theorem c5_witness :
    starCount (str "  hi *there  ") ≤ 1 ∧
    extractSegmentsB (str "  hi *there  ") =
      (if trimStr (str "  hi *there  ") = [] then []
       else [RawSegment.text (trimStr (str "  hi *there  "))]) :=
  ⟨by decide, c5_no_pair_single_text_segment (str "  hi *there  ") (by decide)⟩

theorem splitStarsF_flatten {s : Str} (f : Nat) (h : s.length ≤ f) :
    ((splitStarsF f s).map pieceSpan).flatten = s := by
  induction f generalizing s with
  | zero =>
    have : s = [] := List.length_eq_zero.mp (Nat.le_zero.mp h)
    subst this
    rfl
  | succ f ih =>
    cases h1 : splitAtStar s with
    | none => simp [splitStarsF, h1, pieceSpan]
    | some pr =>
      obtain ⟨p, r⟩ := pr
      cases h2 : splitAtStar r with
      | none => simp [splitStarsF, h1, h2, pieceSpan]
      | some ir =>
        obtain ⟨i, r2⟩ := ir
        obtain ⟨hs, -⟩ := splitAtStar_eq_some h1
        obtain ⟨hr, -⟩ := splitAtStar_eq_some h2
        have hlen : r2.length ≤ f := by
          have e1 := congrArg List.length hs
          have e2 := congrArg List.length hr
          simp at e1 e2
          omega
        have hstep : splitStarsF (f + 1) s =
            Piece.outside p :: Piece.pair i :: splitStarsF f r2 := by
          simp [splitStarsF, h1, h2]
        rw [hstep]
        simp only [List.map_cons, List.flatten_cons, pieceSpan, ih hlen]
        rw [hs, hr]
        simp

/-- C4 amended: concatenating the original spans of ALL the pieces the
extractor scans — the spans of dropped blank pieces included, and with
each delimiter pair's span including its two asterisks — reconstructs
the input document exactly; the emitted segments alone can omit dropped
blank pieces, as the counterexample shows. -/
theorem c4_all_pieces_reconstruct (input : Str) :
    ((splitStars input).map pieceSpan).flatten = input :=
  splitStarsF_flatten input.length (Nat.le_refl _)

theorem segmentsWithSpans_fst (input : Str) :
    (segmentsWithSpans input).map Prod.fst = extractSegmentsB input := by
  have hmap :
      ((splitStars input).filterMap
        (fun p => (pieceToSegB p).map (fun s => (s, pieceSpan p)))).map Prod.fst =
      (splitStars input).filterMap pieceToSegB := by
    rw [List.map_filterMap]
    apply List.filterMap_congr
    intro p _
    cases h : pieceToSegB p <;> simp [h]
  have hemp : ∀ {α β : Type} (f : α → β) (l : List α), (l.map f).isEmpty = l.isEmpty := by
    intro α β f l
    cases l <;> rfl
  have hiff : ((splitStars input).filterMap pieceToSegB).isEmpty =
      ((splitStars input).filterMap
        (fun p => (pieceToSegB p).map (fun s => (s, pieceSpan p)))).isEmpty := by
    rw [← hmap, hemp]
  show (if ((splitStars input).filterMap
        (fun p => (pieceToSegB p).map (fun s => (s, pieceSpan p)))).isEmpty ∧
          trimStr input ≠ []
      then [(RawSegment.text (trimStr input), input)]
      else (splitStars input).filterMap
        (fun p => (pieceToSegB p).map (fun s => (s, pieceSpan p)))).map Prod.fst =
    if ((splitStars input).filterMap pieceToSegB).isEmpty ∧ trimStr input ≠ []
      then [RawSegment.text (trimStr input)]
      else (splitStars input).filterMap pieceToSegB
  by_cases hb : ((splitStars input).filterMap
      (fun p => (pieceToSegB p).map (fun s => (s, pieceSpan p)))).isEmpty ∧
        trimStr input ≠ []
  · rw [if_pos hb, if_pos ⟨by rw [hiff]; exact hb.1, hb.2⟩]
    rfl
  · have hb2 : ¬ (((splitStars input).filterMap pieceToSegB).isEmpty ∧
        trimStr input ≠ []) := by
      intro hc
      exact hb ⟨by rw [← hiff]; exact hc.1, hc.2⟩
    rw [if_neg hb, if_neg hb2]
    exact hmap

end OverleafAI

namespace OverleafAI

theorem headCond_iff (cmd s : Str) :
    (cmd.isPrefixOf s && boundaryOk (s.drop cmd.length)) = true ↔ HeadQual cmd s := by
  simp only [Bool.and_eq_true]
  constructor
  · rintro ⟨h1, h2⟩
    obtain ⟨t, ht⟩ := List.isPrefixOf_iff_prefix.mp h1
    refine ⟨t, ht.symm, ?_⟩
    rw [← ht, List.drop_left] at h2
    exact h2
  · rintro ⟨r2, rfl, hb⟩
    exact ⟨List.isPrefixOf_iff_prefix.mpr ⟨r2, rfl⟩, by rwa [List.drop_left]⟩

theorem not_intQual_nil (cmd : Str) : ¬ IntQual cmd [] := by
  rintro ⟨p, c, r2, h, -, -⟩
  simp at h

theorem intQual_cons_iff (cmd : Str) (a : Char) (t : Str) :
    IntQual cmd (a :: t) ↔
      ((a ≠ '\\' ∧ ∃ r2, t = cmd ++ r2 ∧ boundaryOk r2 = true) ∨ IntQual cmd t) := by
  constructor
  · rintro ⟨p, c, r2, h, hc, hb⟩
    cases p with
    | nil =>
      simp only [List.nil_append, List.cons.injEq] at h
      exact Or.inl ⟨h.1 ▸ hc, r2, h.2, hb⟩
    | cons x p2 =>
      simp only [List.cons_append, List.cons.injEq] at h
      exact Or.inr ⟨p2, c, r2, h.2, hc, hb⟩
  · rintro (⟨ha, r2, ht, hb⟩ | ⟨p, c, r2, h, hc, hb⟩)
    · exact ⟨[], a, r2, by simp [ht], ha, hb⟩
    · exact ⟨a :: p, c, r2, by simp [h], hc, hb⟩

theorem intCond_iff (cmd : Str) (c : Char) (rest : Str) :
    ((c != '\\') && cmd.isPrefixOf rest && boundaryOk (rest.drop cmd.length)) = true ↔
      (c ≠ '\\' ∧ ∃ r2, rest = cmd ++ r2 ∧ boundaryOk r2 = true) := by
  simp only [Bool.and_eq_true, bne_iff_ne, ne_eq]
  constructor
  · rintro ⟨⟨hc, h1⟩, h2⟩
    obtain ⟨t, ht⟩ := List.isPrefixOf_iff_prefix.mp h1
    rw [← ht, List.drop_left] at h2
    exact ⟨hc, t, ht.symm, h2⟩
  · rintro ⟨hc, r2, rfl, hb⟩
    exact ⟨⟨hc, List.isPrefixOf_iff_prefix.mpr ⟨r2, rfl⟩⟩, by rwa [List.drop_left]⟩

theorem escapeGoF_length (cmd : Str) : ∀ (f : Nat) (s : Str),
    s.length ≤ (escapeGoF cmd f s).length := by
  intro f
  induction f with
  | zero => intro s; simp [escapeGoF]
  | succ f ih =>
    intro s
    cases s with
    | nil => simp [escapeGoF]
    | cons c rest =>
      by_cases h : ((c != '\\') && cmd.isPrefixOf rest
          && boundaryOk (rest.drop cmd.length)) = true
      · have hpre : cmd.length ≤ rest.length := by
          simp only [Bool.and_eq_true] at h
          exact (List.isPrefixOf_iff_prefix.mp h.1.2).length_le
        have hrec := ih (rest.drop cmd.length)
        simp only [escapeGoF, h, if_true]
        simp only [List.length_cons, List.length_append, List.length_drop] at hrec ⊢
        omega
      · have hstep : escapeGoF cmd (f + 1) (c :: rest) = c :: escapeGoF cmd f rest := by
          simp [escapeGoF, h]
        have hrec := ih rest
        rw [hstep]
        simp only [List.length_cons]
        omega

theorem escapeGoF_eq_of_not_intQual (cmd : Str) : ∀ (f : Nat) (s : Str),
    ¬ IntQual cmd s → escapeGoF cmd f s = s := by
  intro f
  induction f with
  | zero => intro s _; rfl
  | succ f ih =>
    intro s hq
    cases s with
    | nil => rfl
    | cons c rest =>
      have hcond : ¬ (((c != '\\') && cmd.isPrefixOf rest
          && boundaryOk (rest.drop cmd.length)) = true) := by
        intro hc
        exact hq ((intQual_cons_iff cmd c rest).mpr (Or.inl ((intCond_iff cmd c rest).mp hc)))
      have hrest : ¬ IntQual cmd rest :=
        fun hr => hq ((intQual_cons_iff cmd c rest).mpr (Or.inr hr))
      simp [escapeGoF, hcond, ih rest hrest]

theorem escapeGoF_length_gt (cmd : Str) : ∀ (f : Nat) (s : Str), s.length ≤ f →
    IntQual cmd s → s.length < (escapeGoF cmd f s).length := by
  intro f
  induction f with
  | zero =>
    intro s hf hq
    have : s = [] := List.length_eq_zero.mp (Nat.le_zero.mp hf)
    subst this
    exact absurd hq (not_intQual_nil cmd)
  | succ f ih =>
    intro s hf hq
    cases s with
    | nil => exact absurd hq (not_intQual_nil cmd)
    | cons c rest =>
      by_cases h : ((c != '\\') && cmd.isPrefixOf rest
          && boundaryOk (rest.drop cmd.length)) = true
      · have hpre : cmd.length ≤ rest.length := by
          simp only [Bool.and_eq_true] at h
          exact (List.isPrefixOf_iff_prefix.mp h.1.2).length_le
        have hlen := escapeGoF_length cmd f (rest.drop cmd.length)
        simp only [escapeGoF, h, if_true]
        simp only [List.length_cons, List.length_append, List.length_drop] at hlen ⊢
        omega
      · have hq2 : IntQual cmd rest := by
          rcases (intQual_cons_iff cmd c rest).mp hq with hl | hr
          · exact absurd ((intCond_iff cmd c rest).mpr hl) h
          · exact hr
        have hlt := ih rest (by simp only [List.length_cons] at hf; omega) hq2
        have hstep : escapeGoF cmd (f + 1) (c :: rest) = c :: escapeGoF cmd f rest := by
          simp [escapeGoF, h]
        rw [hstep]
        simp only [List.length_cons]
        omega

theorem escapePass_length (cmd s : Str) : s.length ≤ (escapePass cmd s).length := by
  unfold escapePass
  by_cases h : (cmd.isPrefixOf s && boundaryOk (s.drop cmd.length)) = true
  · have hpre : cmd.length ≤ s.length := by
      simp only [Bool.and_eq_true] at h
      exact (List.isPrefixOf_iff_prefix.mp h.1).length_le
    have hrec := escapeGoF_length cmd (s.drop cmd.length).length (s.drop cmd.length)
    rw [if_pos h]
    simp only [escapeGo, List.length_cons, List.length_append, List.length_drop] at hrec ⊢
    omega
  · rw [if_neg h]
    exact escapeGoF_length cmd s.length s

theorem escapePass_length_gt_of_qual (cmd s : Str) (hq : Qual cmd s) :
    s.length < (escapePass cmd s).length := by
  unfold escapePass
  by_cases h : (cmd.isPrefixOf s && boundaryOk (s.drop cmd.length)) = true
  · have hpre : cmd.length ≤ s.length := by
      simp only [Bool.and_eq_true] at h
      exact (List.isPrefixOf_iff_prefix.mp h.1).length_le
    have hrec := escapeGoF_length cmd (s.drop cmd.length).length (s.drop cmd.length)
    rw [if_pos h]
    simp only [escapeGo, List.length_cons, List.length_append, List.length_drop] at hrec ⊢
    omega
  · rw [if_neg h]
    have hq2 : IntQual cmd s := by
      rcases hq with hh | hi
      · exact absurd ((headCond_iff cmd s).mpr hh) h
      · exact hi
    exact escapeGoF_length_gt cmd s.length s (Nat.le_refl _) hq2

theorem escapePass_eq_self_iff (cmd s : Str) :
    escapePass cmd s = s ↔ ¬ Qual cmd s := by
  constructor
  · intro he hq
    have hlt := escapePass_length_gt_of_qual cmd s hq
    rw [he] at hlt
    omega
  · intro hq
    unfold escapePass
    have hh : ¬ (cmd.isPrefixOf s && boundaryOk (s.drop cmd.length)) = true := by
      intro hc
      exact hq (Or.inl ((headCond_iff cmd s).mp hc))
    rw [if_neg hh]
    exact escapeGoF_eq_of_not_intQual cmd s.length s (fun hi => hq (Or.inr hi))

theorem foldl_escape_length : ∀ (L : List Str) (s : Str),
    s.length ≤ (L.foldl (fun acc cmd => escapePass cmd acc) s).length := by
  intro L
  induction L with
  | nil => intro s; simp
  | cons c L ih =>
    intro s
    rw [List.foldl_cons]
    exact Nat.le_trans (escapePass_length c s) (ih (escapePass c s))

theorem foldl_escape_eq_self : ∀ (L : List Str) (s : Str),
    (∀ cmd ∈ L, ¬ Qual cmd s) →
    L.foldl (fun acc cmd => escapePass cmd acc) s = s := by
  intro L
  induction L with
  | nil => intro s _; rfl
  | cons c L ih =>
    intro s h
    rw [List.foldl_cons, (escapePass_eq_self_iff c s).mpr (h c (by simp))]
    exact ih s (fun cmd hm => h cmd (by simp [hm]))

theorem foldl_escape_length_gt : ∀ (L : List Str) (s : Str),
    (∃ cmd ∈ L, Qual cmd s) →
    s.length < (L.foldl (fun acc cmd => escapePass cmd acc) s).length := by
  intro L
  induction L with
  | nil =>
    rintro s ⟨cmd, hm, -⟩
    simp at hm
  | cons c L ih =>
    rintro s ⟨cmd, hm, hq⟩
    rw [List.foldl_cons]
    by_cases hc : Qual c s
    · exact Nat.lt_of_lt_of_le (escapePass_length_gt_of_qual c s hc)
        (foldl_escape_length L (escapePass c s))
    · rw [(escapePass_eq_self_iff c s).mpr hc]
      rcases List.mem_cons.mp hm with rfl | hm2
      · exact absurd hq hc
      · exact ih s ⟨cmd, hm2, hq⟩

/-- C9 amended: the normalization rewrites a string exactly when some
known command occurs in it at a position that is not immediately
preceded by a backslash and is followed by a non-letter or the end of
the string; in particular a string whose command occurrences are all
already escaped is returned unchanged.  (The code does NOT require the
preceding character to be a non-letter, so a command embedded after
letters — `mint` — is still escaped, which is what refutes the original
"bare identifier" wording.) -/
theorem c9_normalize_escapes_iff (s : Str) :
    normalizeLatex s = s ↔ ∀ cmd ∈ commandsList, ¬ Qual cmd s := by
  by_cases hs : s = []
  · subst hs
    have hne : ∀ c ∈ commandsList, c ≠ ([] : Str) := by decide
    constructor
    · intro _ cmd hm
      rintro (⟨r2, h, -⟩ | hq)
      · exact hne cmd hm (List.append_eq_nil.mp h.symm).1
      · exact not_intQual_nil cmd hq
    · intro _
      simp [normalizeLatex]
  · unfold normalizeLatex
    rw [if_neg hs]
    constructor
    · intro he
      by_contra hq
      push_neg at hq
      obtain ⟨cmd, hm, hq2⟩ := hq
      have hlt := foldl_escape_length_gt commandsList s ⟨cmd, hm, hq2⟩
      rw [he] at hlt
      omega
    · exact foldl_escape_eq_self commandsList s

end OverleafAI

namespace OverleafAI

theorem extractSegmentsB_eq (input : Str) :
    extractSegmentsB input =
      if ((splitStars input).filterMap pieceToSegB).isEmpty ∧ trimStr input ≠ []
      then [.text (trimStr input)]
      else (splitStars input).filterMap pieceToSegB := rfl

theorem extractSegmentsF_eq (input : Str) :
    extractSegmentsF input =
      if ((splitStars input).filterMap pieceToSegF).isEmpty ∧ trimStr input ≠ []
      then [.text input]
      else (splitStars input).filterMap pieceToSegF := rfl

theorem convertCore_eq (input : Str) (latexList : List Str) :
    convertCore input latexList =
      if (mathContents (extractSegmentsB input)).isEmpty
      then textOnlyView (extractSegmentsB input)
      else mergeSegments (extractSegmentsB input)
        (backfill latexList (mathContents (extractSegmentsB input))) := rfl

theorem dropWhile_dropWhile (p : Char → Bool) (l : Str) :
    (l.dropWhile p).dropWhile p = l.dropWhile p := by
  induction l with
  | nil => rfl
  | cons c t ih =>
    by_cases h : p c = true
    · simp [List.dropWhile_cons, h, ih]
    · simp [List.dropWhile_cons, h]

theorem dropWhile_head_false (p : Char → Bool) :
    ∀ (l : Str) {c : Char} {t : Str}, l.dropWhile p = c :: t → p c = false := by
  intro l
  induction l with
  | nil => intro c t h; simp at h
  | cons a l ih =>
    intro c t h
    by_cases ha : p a = true
    · rw [List.dropWhile_cons, if_pos ha] at h
      exact ih h
    · rw [List.dropWhile_cons, if_neg ha] at h
      injection h with h1 h2
      subst h1
      exact Bool.eq_false_iff.mpr ha

theorem trimRight_prefix (u : Str) : trimRight u <+: u := by
  have h : u.reverse.dropWhile isWs <:+ u.reverse := List.dropWhile_suffix isWs
  have h2 := List.reverse_prefix.mpr h
  rwa [List.reverse_reverse] at h2

theorem trimRight_head (u : Str) {c : Char} {t : Str} (h : trimRight u = c :: t) :
    ∃ t2, u = c :: t2 := by
  obtain ⟨t3, ht⟩ := trimRight_prefix u
  rw [h] at ht
  exact ⟨t ++ t3, by rw [← ht]; simp⟩

theorem trimStr_head_not_ws (s : Str) {c : Char} {t : Str} (h : trimStr s = c :: t) :
    isWs c = false := by
  unfold trimStr at h
  obtain ⟨t2, h2⟩ := trimRight_head (trimLeft s) h
  exact dropWhile_head_false isWs s h2

theorem trimLeft_eq_self_of_head (c : Char) (t : Str) (h : isWs c = false) :
    trimLeft (c :: t) = c :: t := by
  unfold trimLeft
  rw [List.dropWhile_cons, if_neg (by simp [h])]

theorem trimRight_trimRight (u : Str) : trimRight (trimRight u) = trimRight u := by
  unfold trimRight
  rw [List.reverse_reverse, dropWhile_dropWhile]

theorem trimStr_idem (s : Str) : trimStr (trimStr s) = trimStr s := by
  unfold trimStr
  cases h : trimRight (trimLeft s) with
  | nil => rfl
  | cons c t =>
    have hc : isWs c = false := trimStr_head_not_ws s (by unfold trimStr; exact h)
    have h2 := trimRight_trimRight (trimLeft s)
    rw [h] at h2
    rw [trimLeft_eq_self_of_head c t hc]
    exact h2

theorem trimStr_eq_nil_iff (s : Str) : trimStr s = [] ↔ ∀ c ∈ s, isWs c = true := by
  unfold trimStr trimRight trimLeft
  constructor
  · intro h
    have h2 : (s.dropWhile isWs).reverse.dropWhile isWs = [] := by
      have h3 := congrArg List.reverse h
      simpa using h3
    have h3 := List.dropWhile_eq_nil_iff.mp h2
    intro c hc
    have hsplit := List.takeWhile_append_dropWhile isWs s
    rw [← hsplit] at hc
    rcases List.mem_append.mp hc with h4 | h4
    · exact List.mem_takeWhile_imp h4
    · exact h3 c (List.mem_reverse.mpr h4)
  · intro h
    have h4 : s.dropWhile isWs = [] :=
      List.dropWhile_eq_nil_iff.mpr (fun c hc => h c hc)
    rw [h4]
    rfl

theorem trimStr_ne_nil_of_mem (s : Str) (c : Char) (hc : c ∈ s) (hw : isWs c = false) :
    trimStr s ≠ [] := by
  intro h
  have h2 := (trimStr_eq_nil_iff s).mp h c hc
  rw [hw] at h2
  exact Bool.noConfusion h2

theorem exists_nonws_of_trim_ne_nil (x : Str) (h : trimStr x ≠ []) :
    ∃ c ∈ trimStr x, isWs c = false := by
  cases hx : trimStr x with
  | nil => exact absurd hx h
  | cons c t => exact ⟨c, by simp [hx], trimStr_head_not_ws x hx⟩

theorem sqrtPassF_nonws : ∀ (f : Nat) (s : Str),
    (∃ c ∈ s, isWs c = false) → ∃ c ∈ sqrtPassF f s, isWs c = false := by
  intro f
  induction f with
  | zero => intro s h; exact h
  | succ f ih =>
    intro s h
    cases s with
    | nil =>
      obtain ⟨c, hc, -⟩ := h
      simp at hc
    | cons a rest =>
      cases hm : matchSqrt (a :: rest) with
      | some pr =>
        refine ⟨'\\', ?_, by decide⟩
        simp only [sqrtPassF, hm]
        exact List.mem_append.mpr (Or.inl (by decide))
      | none =>
        obtain ⟨c, hc, hw⟩ := h
        rcases List.mem_cons.mp hc with rfl | hc2
        · exact ⟨c, by simp [sqrtPassF, hm], hw⟩
        · obtain ⟨c2, hc3, hw2⟩ := ih rest ⟨c, hc2, hw⟩
          exact ⟨c2, by simp [sqrtPassF, hm, hc3], hw2⟩

theorem integralPassF_nonws : ∀ (f : Nat) (s : Str),
    (∃ c ∈ s, isWs c = false) → ∃ c ∈ integralPassF f s, isWs c = false := by
  intro f
  induction f with
  | zero => intro s h; exact h
  | succ f ih =>
    intro s h
    cases s with
    | nil =>
      obtain ⟨c, hc, -⟩ := h
      simp at hc
    | cons a rest =>
      cases hm : matchIntegral (a :: rest) with
      | some pr =>
        refine ⟨'\\', ?_, by decide⟩
        simp only [integralPassF, hm]
        exact List.mem_append.mpr (Or.inl (by decide))
      | none =>
        obtain ⟨c, hc, hw⟩ := h
        rcases List.mem_cons.mp hc with rfl | hc2
        · exact ⟨c, by simp [integralPassF, hm], hw⟩
        · obtain ⟨c2, hc3, hw2⟩ := ih rest ⟨c, hc2, hw⟩
          exact ⟨c2, by simp [integralPassF, hm, hc3], hw2⟩

theorem fractionPassF_nonws : ∀ (f : Nat) (s : Str),
    (∃ c ∈ s, isWs c = false) → ∃ c ∈ fractionPassF f s, isWs c = false := by
  intro f
  induction f with
  | zero => intro s h; exact h
  | succ f ih =>
    intro s h
    cases s with
    | nil =>
      obtain ⟨c, hc, -⟩ := h
      simp at hc
    | cons a rest =>
      cases hm : matchFraction (a :: rest) with
      | some pr =>
        refine ⟨'\\', ?_, by decide⟩
        simp only [fractionPassF, hm]
        exact List.mem_append.mpr (Or.inl (by decide))
      | none =>
        obtain ⟨c, hc, hw⟩ := h
        rcases List.mem_cons.mp hc with rfl | hc2
        · exact ⟨c, by simp [fractionPassF, hm], hw⟩
        · obtain ⟨c2, hc3, hw2⟩ := ih rest ⟨c, hc2, hw⟩
          exact ⟨c2, by simp [fractionPassF, hm, hc3], hw2⟩

theorem basicInlineConverter_ne_nil (s : Str) (h : ∃ c ∈ s, isWs c = false) :
    basicInlineConverter s ≠ [] := by
  have h1 := sqrtPassF_nonws s.length s h
  have h2 := integralPassF_nonws (sqrtPassF s.length s).length
    (sqrtPassF s.length s) h1
  have h3 := fractionPassF_nonws
    (integralPassF (sqrtPassF s.length s).length (sqrtPassF s.length s)).length
    (integralPassF (sqrtPassF s.length s).length (sqrtPassF s.length s)) h2
  obtain ⟨c, hc, hw⟩ := h3
  exact trimStr_ne_nil_of_mem
    (fractionPassF
      (integralPassF (sqrtPassF s.length s).length (sqrtPassF s.length s)).length
      (integralPassF (sqrtPassF s.length s).length (sqrtPassF s.length s)))
    c hc hw

theorem normalizeLatex_ne_nil (s : Str) (h : s ≠ []) : normalizeLatex s ≠ [] := by
  unfold normalizeLatex
  rw [if_neg h]
  intro h2
  have h3 := foldl_escape_length commandsList s
  rw [h2] at h3
  simp at h3
  exact h h3

end OverleafAI

namespace OverleafAI

theorem mathContents_cons_text (c : Str) (l : List RawSegment) :
    mathContents (.text c :: l) = mathContents l := by
  simp [mathContents, isMathSeg, List.filter_cons]

theorem mathContents_cons_math (c : Str) (l : List RawSegment) :
    mathContents (.math c :: l) = c :: mathContents l := by
  simp [mathContents, isMathSeg, List.filter_cons, segContent]

theorem extractB_content (input : Str) :
    ∀ s ∈ extractSegmentsB input, ∃ x, segContent s = trimStr x ∧ trimStr x ≠ [] := by
  intro s hs
  rw [extractSegmentsB_eq] at hs
  by_cases hb : ((splitStars input).filterMap pieceToSegB).isEmpty ∧ trimStr input ≠ []
  · rw [if_pos hb] at hs
    simp at hs
    subst hs
    exact ⟨input, rfl, hb.2⟩
  · rw [if_neg hb] at hs
    obtain ⟨p, -, hp⟩ := List.mem_filterMap.mp hs
    cases p with
    | outside x =>
      by_cases ht : trimStr x = []
      · simp [pieceToSegB, ht] at hp
      · simp [pieceToSegB, ht] at hp
        exact ⟨x, by rw [← hp]; rfl, ht⟩
    | pair x =>
      by_cases ht : trimStr x = []
      · simp [pieceToSegB, ht] at hp
      · simp [pieceToSegB, ht] at hp
        exact ⟨x, by rw [← hp]; rfl, ht⟩

theorem extractF_content (input : Str) :
    ∀ s ∈ extractSegmentsF input, trimStr (segContent s) ≠ [] := by
  intro s hs
  rw [extractSegmentsF_eq] at hs
  by_cases hb : ((splitStars input).filterMap pieceToSegF).isEmpty ∧ trimStr input ≠ []
  · rw [if_pos hb] at hs
    simp at hs
    subst hs
    exact hb.2
  · rw [if_neg hb] at hs
    obtain ⟨p, -, hp⟩ := List.mem_filterMap.mp hs
    cases p with
    | outside x =>
      by_cases ht : trimStr x = []
      · simp [pieceToSegF, ht] at hp
      · simp [pieceToSegF, ht] at hp
        rw [← hp]
        exact ht
    | pair x =>
      by_cases ht : trimStr x = []
      · simp [pieceToSegF, ht] at hp
      · simp [pieceToSegF, ht] at hp
        rw [← hp]
        exact ht

theorem extractB_eq_map_trim (input : Str) :
    extractSegmentsB input = (extractSegmentsF input).map trimRaw := by
  rw [extractSegmentsB_eq, extractSegmentsF_eq]
  have hmap : (splitStars input).filterMap pieceToSegB =
      ((splitStars input).filterMap pieceToSegF).map trimRaw := by
    rw [List.map_filterMap]
    apply List.filterMap_congr
    intro p _
    cases p with
    | outside x =>
      by_cases ht : trimStr x = [] <;> simp [pieceToSegB, pieceToSegF, ht, trimRaw]
    | pair x =>
      by_cases ht : trimStr x = [] <;> simp [pieceToSegB, pieceToSegF, ht, trimRaw]
  have hemp : ((splitStars input).filterMap pieceToSegB).isEmpty =
      ((splitStars input).filterMap pieceToSegF).isEmpty := by
    rw [hmap]
    cases (splitStars input).filterMap pieceToSegF <;> rfl
  by_cases hb : ((splitStars input).filterMap pieceToSegF).isEmpty ∧ trimStr input ≠ []
  · rw [if_pos ⟨by rw [hemp]; exact hb.1, hb.2⟩, if_pos hb]
    simp [trimRaw]
  · rw [if_neg (fun hc => hb ⟨by rw [← hemp]; exact hc.1, hc.2⟩), if_neg hb]
    exact hmap

theorem mathContents_map_trim (l : List RawSegment) :
    mathContents (l.map trimRaw) = (mathContents l).map trimStr := by
  induction l with
  | nil => rfl
  | cons s l ih =>
    cases s with
    | text c => simpa [trimRaw, mathContents_cons_text] using ih
    | math c => simpa [trimRaw, mathContents_cons_math] using ih

theorem latexContents_map_renderB (l : List RawSegment) :
    latexContents (l.map renderB) =
      (mathContents l).map (fun c => normalizeLatex (basicInlineConverter c)) := by
  induction l with
  | nil => rfl
  | cons s l ih =>
    cases s with
    | text c =>
      simpa [latexContents, renderB, List.filterMap_cons, mathContents_cons_text]
        using ih
    | math c =>
      simpa [latexContents, renderB, List.filterMap_cons, mathContents_cons_math]
        using ih

theorem textOnlyView_eq_map : ∀ (l : List RawSegment),
    (∀ s ∈ l, segContent s ≠ []) → (∀ s ∈ l, isMathSeg s = false) →
    textOnlyView l = l.map renderB := by
  intro l
  induction l with
  | nil => intro _ _; rfl
  | cons s l ih =>
    intro h1 h2
    cases s with
    | text c =>
      have hc : c ≠ [] := h1 (.text c) (by simp)
      have hstep : textOnlyView (RawSegment.text c :: l) =
          RSeg.text c :: textOnlyView l := by
        simp [textOnlyView, List.filterMap_cons, segContent, hc]
      rw [hstep, ih (fun s hs => h1 s (by simp [hs])) (fun s hs => h2 s (by simp [hs]))]
      rfl
    | math c => exact absurd (h2 (.math c) (by simp)) (by simp [isMathSeg])

theorem mergeSegments_eq_map : ∀ (segs : List RawSegment),
    (∀ s ∈ segs, segContent s ≠ []) →
    (∀ c ∈ mathContents segs, normalizeLatex (basicInlineConverter c) ≠ []) →
    mergeSegments segs ((mathContents segs).map basicInlineConverter) =
      segs.map renderB := by
  intro segs
  induction segs with
  | nil => intro _ _; rfl
  | cons s l ih =>
    intro h1 h2
    cases s with
    | text c =>
      have hc : c ≠ [] := h1 (.text c) (by simp)
      rw [mathContents_cons_text]
      have hstep : mergeSegments (RawSegment.text c :: l)
          ((mathContents l).map basicInlineConverter) =
          RSeg.text c :: mergeSegments l ((mathContents l).map basicInlineConverter) := by
        simp [mergeSegments, hc]
      rw [hstep,
        ih (fun s hs => h1 s (by simp [hs]))
          (fun c2 hc2 => h2 c2 (by rw [mathContents_cons_text]; exact hc2))]
      rfl
    | math c =>
      have hc : c ≠ [] := h1 (.math c) (by simp)
      have hnc : normalizeLatex (basicInlineConverter c) ≠ [] :=
        h2 c (by rw [mathContents_cons_math]; simp)
      rw [mathContents_cons_math, List.map_cons]
      have hstep : mergeSegments (RawSegment.math c :: l)
          (basicInlineConverter c :: (mathContents l).map basicInlineConverter) =
          RSeg.latex (normalizeLatex (basicInlineConverter c)) ::
            mergeSegments l ((mathContents l).map basicInlineConverter) := by
        simp [mergeSegments, hc, hnc]
      rw [hstep,
        ih (fun s hs => h1 s (by simp [hs]))
          (fun c2 hc2 => h2 c2 (by rw [mathContents_cons_math]; simp [hc2]))]
      rfl

theorem convertNoKey_eq_map (input : Str) :
    convertMathToLatexNoKey input = (extractSegmentsB input).map renderB := by
  have hcontent : ∀ s ∈ extractSegmentsB input, segContent s ≠ [] := by
    intro s hs
    obtain ⟨x, hx, hne⟩ := extractB_content input s hs
    rw [hx]
    exact hne
  have hconv : ∀ c ∈ mathContents (extractSegmentsB input),
      normalizeLatex (basicInlineConverter c) ≠ [] := by
    intro c hc
    have hmem : ∃ s ∈ extractSegmentsB input, segContent s = c := by
      obtain ⟨s, hs, heq⟩ := List.mem_map.mp hc
      exact ⟨s, List.mem_of_mem_filter hs, heq⟩
    obtain ⟨s, hs, rfl⟩ := hmem
    obtain ⟨x, hx, hne⟩ := extractB_content input s hs
    rw [hx]
    exact normalizeLatex_ne_nil _
      (basicInlineConverter_ne_nil _ (exists_nonws_of_trim_ne_nil x hne))
  show convertCore input _ = _
  rw [convertCore_eq]
  by_cases hm : (mathContents (extractSegmentsB input)).isEmpty = true
  · rw [if_pos hm]
    have hnomath : ∀ s ∈ extractSegmentsB input, isMathSeg s = false := by
      intro s hs
      by_contra hmath
      have hmem : segContent s ∈ mathContents (extractSegmentsB input) :=
        List.mem_map.mpr ⟨s, List.mem_filter.mpr ⟨hs, by simpa using hmath⟩, rfl⟩
      rw [List.isEmpty_iff.mp hm] at hmem
      simp at hmem
    exact textOnlyView_eq_map (extractSegmentsB input) hcontent hnomath
  · rw [if_neg hm]
    have hback : backfill ((mathContents (extractSegmentsB input)).map basicInlineConverter)
        (mathContents (extractSegmentsB input)) =
        (mathContents (extractSegmentsB input)).map basicInlineConverter := by
      unfold backfill
      rw [if_neg (by simp)]
    rw [hback]
    exact mergeSegments_eq_map (extractSegmentsB input) hcontent hconv

/-- C2 amended: with no external service configured, NO instruction is
dropped: the response renders every extracted segment, text segments as
text and every instruction — including those matching none of the
fallback converter's shapes, which the converter returns unchanged — as
a latex segment holding the normalized fallback conversion of its text. -/
theorem c2_nokey_conversion_drops_nothing (input : Str) :
    convertMathToLatexNoKey input = (extractSegmentsB input).map renderB :=
  convertNoKey_eq_map input

end OverleafAI

namespace OverleafAI

theorem updateCache_lookup (h : Str → Str) :
    ∀ (snap : List Str) (m : Cache) (k : Str), (∀ x ∈ snap, x ≠ []) →
    updateCache m snap (snap.map h) k =
      if k ∈ snap then some (h k) else m k := by
  intro snap
  induction snap with
  | nil =>
    intro m k _
    simp [updateCache]
  | cons a snap ih =>
    intro m k hne
    have ha : a ≠ [] := hne a (by simp)
    have hstep : updateCache m (a :: snap) ((a :: snap).map h) =
        updateCache (cacheSet m a (h a)) snap (snap.map h) := by
      simp [updateCache, ha]
    rw [hstep, ih (cacheSet m a (h a)) k (fun x hx => hne x (by simp [hx]))]
    by_cases hk : k ∈ snap
    · rw [if_pos hk, if_pos (by simp [hk])]
    · rw [if_neg hk]
      by_cases hka : k = a
      · subst hka
        rw [if_pos (by simp)]
        simp [cacheSet]
      · rw [if_neg (by simp [hka, hk])]
        simp [cacheSet, hka]

theorem reconcileCycle_blank (m : Cache) (input : Str) (r : Option (List RSeg))
    (h : trimStr input = []) : reconcileCycle m input r = ⟨[], false, m⟩ := by
  simp [reconcileCycle, h]

theorem reconcileCycle_nomath (m : Cache) (input : Str) (r : Option (List RSeg))
    (h : trimStr input ≠ []) (h2 : (extractSegmentsF input).any isMathSeg = false) :
    reconcileCycle m input r =
      ⟨(extractSegmentsF input).map (fun s => RSeg.text (segContent s)), false, m⟩ := by
  simp [reconcileCycle, h, h2]

theorem reconcileCycle_cached (m : Cache) (input : Str) (r : Option (List RSeg))
    (h : trimStr input ≠ []) (h2 : (extractSegmentsF input).any isMathSeg = true)
    (h3 : needsConv m (extractSegmentsF input) = false) :
    reconcileCycle m input r =
      ⟨(extractSegmentsF input).map (hydrateSeg m), false, m⟩ := by
  simp [reconcileCycle, h, h2, h3]

theorem reconcileCycle_call_ok (m : Cache) (input : Str) (out : List RSeg)
    (h : trimStr input ≠ []) (h2 : (extractSegmentsF input).any isMathSeg = true)
    (h3 : needsConv m (extractSegmentsF input) = true) :
    reconcileCycle m input (some out) =
      ⟨out, true,
        updateCache m (mathContents (extractSegmentsF input)) (latexContents out)⟩ := by
  simp [reconcileCycle, h, h2, h3]

theorem reconcileCycle_call_fail (m : Cache) (input : Str)
    (h : trimStr input ≠ []) (h2 : (extractSegmentsF input).any isMathSeg = true)
    (h3 : needsConv m (extractSegmentsF input) = true) :
    reconcileCycle m input none =
      ⟨(extractSegmentsF input).map (hydrateSeg m), true, m⟩ := by
  simp [reconcileCycle, h, h2, h3]

theorem reconcileCycle_cache_cases (m : Cache) (input : Str) (r : Option (List RSeg)) :
    (reconcileCycle m input r).cache = m ∨
    (∃ out, r = some out ∧ needsConv m (extractSegmentsF input) = true ∧
      (reconcileCycle m input r).cache =
        updateCache m (mathContents (extractSegmentsF input)) (latexContents out)) := by
  by_cases h : trimStr input = []
  · left
    rw [reconcileCycle_blank m input r h]
  · by_cases h2 : (extractSegmentsF input).any isMathSeg = true
    · by_cases h3 : needsConv m (extractSegmentsF input) = false
      · left
        rw [reconcileCycle_cached m input r h h2 h3]
      · cases r with
        | none =>
          left
          rw [reconcileCycle_call_fail m input h h2 (by simpa using h3)]
        | some out =>
          right
          exact ⟨out, rfl, by simpa using h3,
            by rw [reconcileCycle_call_ok m input out h h2 (by simpa using h3)]⟩
    · left
      rw [reconcileCycle_nomath m input r h (by simpa using h2)]

theorem mathContentsF_ne_nil (input : Str) :
    ∀ x ∈ mathContents (extractSegmentsF input), x ≠ [] := by
  intro x hx
  obtain ⟨s, hsf, heq⟩ := List.mem_map.mp hx
  have hc := extractF_content input s (List.mem_of_mem_filter hsf)
  intro hxe
  rw [heq, hxe] at hc
  exact hc rfl

theorem latexContents_convertNoKey (input : Str) :
    latexContents (convertMathToLatexNoKey input) =
      (mathContents (extractSegmentsF input)).map cacheVal := by
  rw [convertNoKey_eq_map, latexContents_map_renderB, extractB_eq_map_trim,
    mathContents_map_trim, List.map_map]
  rfl

/-- C7: across one reconciliation cycle of a session-consistent cache,
every cache entry present beforehand is still present with the same
value afterwards, any key whose binding changed was previously absent
(entries are only added), and a failed batch call leaves the cache
completely unchanged. -/
theorem c7_cache_monotone (m : Cache) (input : Str) (r : Option (List RSeg))
    (hcons : consistentCache m)
    (hr : r = none ∨ r = some (convertMathToLatexNoKey input)) :
    (∀ k v, m k = some v → (reconcileCycle m input r).cache k = some v) ∧
    (∀ k, (reconcileCycle m input r).cache k ≠ m k → m k = none) ∧
    (r = none → (reconcileCycle m input r).cache = m) := by
  obtain hsame | ⟨out, hout, -, hcache⟩ := reconcileCycle_cache_cases m input r
  · refine ⟨?_, ?_, fun _ => hsame⟩
    · intro k v hk
      rw [hsame]
      exact hk
    · intro k hk
      rw [hsame] at hk
      exact absurd rfl hk
  · rcases hr with rfl | hr2
    · exact Option.noConfusion hout
    · rw [hr2] at hout
      injection hout with hout2
      subst hout2
      have hlook := updateCache_lookup cacheVal (mathContents (extractSegmentsF input))
      have hne := mathContentsF_ne_nil input
      rw [latexContents_convertNoKey input] at hcache
      refine ⟨?_, ?_, ?_⟩
      · intro k v hk
        rw [hcache, hlook m k hne]
        by_cases hkm : k ∈ mathContents (extractSegmentsF input)
        · rw [if_pos hkm, ← hcons k v hk]
        · rw [if_neg hkm]
          exact hk
      · intro k hk
        rw [hcache, hlook m k hne] at hk
        by_cases hkm : k ∈ mathContents (extractSegmentsF input)
        · rw [if_pos hkm] at hk
          cases hmk : m k with
          | none => rfl
          | some v => exact absurd (by rw [hmk, hcons k v hmk]) hk
        · rw [if_neg hkm] at hk
          exact absurd rfl hk
      · intro hnone
        rw [hr2] at hnone
        exact Option.noConfusion hnone

theorem c7_witness :
    consistentCache emptyCache ∧
    ((some (convertMathToLatexNoKey (str "*squareroot(2x)*")) : Option (List RSeg)) = none ∨
      (some (convertMathToLatexNoKey (str "*squareroot(2x)*")) : Option (List RSeg)) =
        some (convertMathToLatexNoKey (str "*squareroot(2x)*"))) ∧
    ((∀ k v, emptyCache k = some v →
        (reconcileCycle emptyCache (str "*squareroot(2x)*")
          (some (convertMathToLatexNoKey (str "*squareroot(2x)*")))).cache k = some v) ∧
      (∀ k, (reconcileCycle emptyCache (str "*squareroot(2x)*")
          (some (convertMathToLatexNoKey (str "*squareroot(2x)*")))).cache k ≠
            emptyCache k → emptyCache k = none) ∧
      ((some (convertMathToLatexNoKey (str "*squareroot(2x)*")) : Option (List RSeg)) = none →
        (reconcileCycle emptyCache (str "*squareroot(2x)*")
          (some (convertMathToLatexNoKey (str "*squareroot(2x)*")))).cache = emptyCache)) :=
  ⟨fun _ _ h => Option.noConfusion h, Or.inr rfl,
    c7_cache_monotone emptyCache (str "*squareroot(2x)*")
      (some (convertMathToLatexNoKey (str "*squareroot(2x)*")))
      (fun _ _ h => Option.noConfusion h) (Or.inr rfl)⟩

end OverleafAI

namespace OverleafAI

theorem cacheVal_ne_nil (c : Str) (h : trimStr c ≠ []) : cacheVal c ≠ [] := by
  unfold cacheVal
  exact normalizeLatex_ne_nil _
    (basicInlineConverter_ne_nil _ (exists_nonws_of_trim_ne_nil c h))

theorem needsConv_false_of_covered (m : Cache) (segs : List RawSegment)
    (h : ∀ s ∈ segs, isMathSeg s = true → ∃ v, cacheHit m (segContent s) = some v) :
    needsConv m segs = false := by
  unfold needsConv
  rw [List.any_eq_false]
  intro s hs
  by_cases hm : isMathSeg s = true
  · obtain ⟨v, hv⟩ := h s hs hm
    simp [hm, hv]
  · simp [Bool.eq_false_iff.mpr hm]

theorem hydrate_eq (m : Cache) (segs : List RawSegment) (g : Str → Str)
    (h : ∀ s ∈ segs, isMathSeg s = true →
      cacheHit m (segContent s) = some (g (segContent s))) :
    segs.map (hydrateSeg m) = segs.map (fun s =>
      match s with
      | .text c => RSeg.text c
      | .math c => RSeg.latex (g c)) := by
  apply List.map_congr_left
  intro s hs
  cases s with
  | text c => rfl
  | math c =>
    have hc := h (.math c) hs rfl
    simp only [segContent] at hc
    simp [hydrateSeg, hc]

/-- C6 amended: a second reconciliation of a document whose every
instruction was resolved by a prior successful reconciliation performs
zero external calls (its result does not depend on any response), and
its rendered segments agree with the prior reconciliation's up to
whitespace-trimming of each segment's content: the frontend extractor
keeps untrimmed runs while the server returns trimmed ones, so exact
equality fails but the trimmed forms coincide. -/
theorem c6_cached_cycle_no_call_output_eq_up_to_trim
    (input : Str) (m0 : Cache) (r2 : Option (List RSeg)) :
    (reconcileCycle
        (reconcileCycle m0 input (some (convertMathToLatexNoKey input))).cache
        input r2).didCall = false ∧
    trimSegs (reconcileCycle
        (reconcileCycle m0 input (some (convertMathToLatexNoKey input))).cache
        input r2).output =
      trimSegs (reconcileCycle m0 input (some (convertMathToLatexNoKey input))).output := by
  by_cases h : trimStr input = []
  · rw [reconcileCycle_blank m0 input _ h]
    dsimp only
    rw [reconcileCycle_blank m0 input r2 h]
    exact ⟨rfl, rfl⟩
  · by_cases h2 : (extractSegmentsF input).any isMathSeg = true
    · by_cases h3 : needsConv m0 (extractSegmentsF input) = false
      · rw [reconcileCycle_cached m0 input _ h h2 h3]
        dsimp only
        rw [reconcileCycle_cached m0 input r2 h h2 h3]
        exact ⟨rfl, rfl⟩
      · have h3t : needsConv m0 (extractSegmentsF input) = true := by simpa using h3
        rw [reconcileCycle_call_ok m0 input (convertMathToLatexNoKey input) h h2 h3t]
        dsimp only
        have hlx := latexContents_convertNoKey input
        have hlook := updateCache_lookup cacheVal (mathContents (extractSegmentsF input))
        have hne := mathContentsF_ne_nil input
        have hcov : ∀ s ∈ extractSegmentsF input, isMathSeg s = true →
            cacheHit (updateCache m0 (mathContents (extractSegmentsF input))
                (latexContents (convertMathToLatexNoKey input))) (segContent s) =
              some (cacheVal (segContent s)) := by
          intro s hs hm
          have hmem : segContent s ∈ mathContents (extractSegmentsF input) :=
            List.mem_map.mpr ⟨s, List.mem_filter.mpr ⟨hs, by simpa using hm⟩, rfl⟩
          have hval : updateCache m0 (mathContents (extractSegmentsF input))
              (latexContents (convertMathToLatexNoKey input)) (segContent s) =
              some (cacheVal (segContent s)) := by
            rw [hlx, hlook m0 (segContent s) hne, if_pos hmem]
          have hvne : cacheVal (segContent s) ≠ [] :=
            cacheVal_ne_nil (segContent s) (extractF_content input s hs)
          simp [cacheHit, hval, hvne]
        have hneeds : needsConv (updateCache m0 (mathContents (extractSegmentsF input))
            (latexContents (convertMathToLatexNoKey input))) (extractSegmentsF input) = false :=
          needsConv_false_of_covered _ _ (fun s hs hm => ⟨_, hcov s hs hm⟩)
        rw [reconcileCycle_cached _ input r2 h h2 hneeds]
        dsimp only
        refine ⟨rfl, ?_⟩
        rw [hydrate_eq _ (extractSegmentsF input) cacheVal hcov]
        rw [convertNoKey_eq_map, extractB_eq_map_trim]
        unfold trimSegs
        rw [List.map_map, List.map_map, List.map_map]
        apply List.map_congr_left
        intro s _
        cases s with
        | text c =>
          simp [trimRaw, renderB, trimRSeg, Function.comp, trimStr_idem]
        | math c =>
          simp [trimRaw, renderB, trimRSeg, Function.comp, cacheVal]
    · have h2f : (extractSegmentsF input).any isMathSeg = false := by simpa using h2
      rw [reconcileCycle_nomath m0 input _ h h2f]
      dsimp only
      rw [reconcileCycle_nomath m0 input r2 h h2f]
      exact ⟨rfl, rfl⟩

end OverleafAI
